import Mathlib

/-!
Verification of the clustering-efficiency experiment module
(`bin/experiments.py`) against its specification.

The module's core is `cluster_efficiency`, which compares a cluster
assignment against a reference ("auto") assignment through a contingency
table and returns a per-cluster weighted-purity score.  Labels are opaque
sortable values; we instantiate them at `ℤ`.  Python floats are modelled
exactly by `ℚ`; the `assert` on input lengths is modelled by returning
`Option`: `none` is the precondition failure.
-/

/-- `sorted(set(l))`: the distinct labels of `l` in increasing order
(lines 15-16 of the source). -/
def sortedDistinct (l : List ℤ) : List ℤ :=
  Finset.sort (· ≤ ·) l.toFinset

/-- One entry of the contingency table `table` built by the loop at
lines 27-31 of the source: the number of positions at which the cluster
label is `c` and the auto label is `a`.  The loop increments `table[i, j]`
exactly once per such position of `zip(cluster_labels, auto_labels)`. -/
def pairCount (cluster_labels auto_labels : List ℤ) (c a : ℤ) : ℕ :=
  (cluster_labels.zip auto_labels).countP (fun p => p.1 == c && p.2 == a)

/-- `np.dot` on two rational vectors: sum of componentwise products. -/
def dotQ (xs ys : List ℚ) : ℚ :=
  ((xs.zip ys).map (fun p => p.1 * p.2)).sum

/-- Embedding of `cluster_efficiency(cluster_labels, auto_labels)`
(lines 12-53 of the source).  The length assert (line 13) becomes the
`Option` guard.  For each cluster (row `i`) the source builds
`n_cluster_in_auto = [table[i, j] for j]` and
`pct_cluster_in_auto = [table[i, j] / sum(table[:, j]) for j]`, takes
`wsum = np.dot(n_cluster_in_auto, pct_cluster_in_auto)` and returns
`wsum / sum(n_cluster_in_auto)` keyed by the cluster label. -/
def cluster_efficiency (cluster_labels auto_labels : List ℤ) :
    Option (List (ℤ × ℚ)) :=
  if cluster_labels.length = auto_labels.length then
    some ((sortedDistinct cluster_labels).map (fun cluster =>
      (cluster,
        dotQ
          ((sortedDistinct auto_labels).map (fun auto =>
            (pairCount cluster_labels auto_labels cluster auto : ℚ)))
          ((sortedDistinct auto_labels).map (fun auto =>
            (pairCount cluster_labels auto_labels cluster auto : ℚ) /
              ((sortedDistinct cluster_labels).map (fun c =>
                (pairCount cluster_labels auto_labels c auto : ℚ))).sum)) /
        ((sortedDistinct auto_labels).map (fun auto =>
          (pairCount cluster_labels auto_labels cluster auto : ℚ))).sum)))
  else none

/-- The column total `sum(table[:, j])` of the contingency table, written
as a sum over the distinct cluster labels. -/
def colsum (cl al : List ℤ) (a : ℤ) : ℚ :=
  ∑ c in cl.toFinset, (pairCount cl al c a : ℚ)

/-- The specification's formula for the efficiency of cluster `c`:
`(Σ_j T[i,j] * (T[i,j] / colsum_j)) / (Σ_j T[i,j])`, with `j` ranging
over the distinct auto labels. -/
def effValue (cl al : List ℤ) (c : ℤ) : ℚ :=
  (∑ a in al.toFinset,
      (pairCount cl al c a : ℚ) * ((pairCount cl al c a : ℚ) / colsum cl al a)) /
    ∑ a in al.toFinset, (pairCount cl al c a : ℚ)

lemma mem_sortedDistinct {l : List ℤ} {c : ℤ} :
    c ∈ sortedDistinct l ↔ c ∈ l := by
  simp [sortedDistinct, Finset.mem_sort]

lemma sortedDistinct_nodup (l : List ℤ) : (sortedDistinct l).Nodup :=
  Finset.sort_nodup _ _

lemma sum_map_sortedDistinct (l : List ℤ) (f : ℤ → ℚ) :
    ((sortedDistinct l).map f).sum = ∑ a in l.toFinset, f a := by
  rw [sortedDistinct, ← List.sum_toFinset f (Finset.sort_nodup _ _),
    Finset.sort_toFinset]

lemma dotQ_map (l : List ℤ) (f g : ℤ → ℚ) :
    dotQ (l.map f) (l.map g) = (l.map (fun a => f a * g a)).sum := by
  rw [dotQ, List.zip_map' f g l, List.map_map]
  rfl

/-- Closed form of `cluster_efficiency`: on equal-length inputs it returns
the association list pairing each distinct cluster label, in sorted order,
with the efficiency formula `effValue`. -/
lemma cluster_efficiency_eq (cl al : List ℤ) (h : cl.length = al.length) :
    cluster_efficiency cl al =
      some ((sortedDistinct cl).map (fun c => (c, effValue cl al c))) := by
  rw [cluster_efficiency, if_pos h]
  refine congrArg some (List.map_congr_left ?_)
  intro c _
  rw [dotQ_map]
  simp only [sum_map_sortedDistinct, effValue, colsum]

/-- Summing, over a finset containing every first component of `ps`, the
count of pairs whose first component is `c` and which satisfy `q`, yields
the count of pairs satisfying `q`. -/
lemma sum_countP_key (ps : List (ℤ × ℤ)) (s : Finset ℤ) (q : ℤ × ℤ → Bool)
    (hmem : ∀ p ∈ ps, p.1 ∈ s) :
    ∑ c in s, ps.countP (fun p => p.1 == c && q p) = ps.countP q := by
  induction ps with
  | nil => simp
  | cons p ps ih =>
    have hp : p.1 ∈ s := hmem p (List.mem_cons_self p ps)
    have ih' := ih (fun r hr => hmem r (List.mem_cons_of_mem p hr))
    simp only [List.countP_cons]
    rw [Finset.sum_add_distrib, ih']
    congr 1
    by_cases hq : q p
    · simp only [hq, Bool.and_true, beq_iff_eq, if_true]
      rw [Finset.sum_ite_eq]
      simp [hp]
    · simp [hq]

lemma sum_pairCount_fst (cl al : List ℤ) (a : ℤ) :
    ∑ c in cl.toFinset, pairCount cl al c a =
      (cl.zip al).countP (fun p => p.2 == a) := by
  refine sum_countP_key _ _ _ ?_
  intro p hp
  exact List.mem_toFinset.mpr (List.of_mem_zip (a := p.1) (b := p.2) (by simpa using hp)).1

lemma sum_pairCount_snd (cl al : List ℤ) (c : ℤ) :
    ∑ a in al.toFinset, pairCount cl al c a =
      (cl.zip al).countP (fun p => p.1 == c) := by
  have hswap : ∀ a : ℤ, pairCount cl al c a =
      ((cl.zip al).map Prod.swap).countP (fun p => p.1 == a && p.2 == c) := by
    intro a
    rw [pairCount, List.countP_map]
    exact List.countP_congr (fun p _ => by simp [Bool.and_comm])
  calc ∑ a in al.toFinset, pairCount cl al c a
      = ∑ a in al.toFinset,
          ((cl.zip al).map Prod.swap).countP (fun p => p.1 == a && p.2 == c) :=
        Finset.sum_congr rfl (fun a _ => hswap a)
    _ = ((cl.zip al).map Prod.swap).countP (fun p => p.2 == c) := by
        refine sum_countP_key _ _ _ ?_
        intro p hp
        obtain ⟨r, hr, hrp⟩ := List.mem_map.mp hp
        have := (List.of_mem_zip (a := r.1) (b := r.2) (by simpa using hr)).2
        rw [← hrp]
        exact List.mem_toFinset.mpr this
    _ = (cl.zip al).countP (fun p => p.1 == c) := by
        rw [List.countP_map]
        rfl

lemma countP_snd_eq_count (cl al : List ℤ) (h : cl.length = al.length) (a : ℤ) :
    (cl.zip al).countP (fun p => p.2 == a) = al.count a := by
  have h2 : List.map Prod.snd (cl.zip al) = al :=
    List.map_snd_zip cl al (le_of_eq h.symm)
  calc (cl.zip al).countP (fun p => p.2 == a)
      = ((cl.zip al).map Prod.snd).countP (· == a) := by
        rw [List.countP_map]
        rfl
    _ = al.count a := by rw [h2, List.count_eq_countP]

lemma countP_fst_eq_count (cl al : List ℤ) (h : cl.length = al.length) (c : ℤ) :
    (cl.zip al).countP (fun p => p.1 == c) = cl.count c := by
  have h2 : List.map Prod.fst (cl.zip al) = cl :=
    List.map_fst_zip cl al (le_of_eq h)
  calc (cl.zip al).countP (fun p => p.1 == c)
      = ((cl.zip al).map Prod.fst).countP (· == c) := by
        rw [List.countP_map]
        rfl
    _ = cl.count c := by rw [h2, List.count_eq_countP]

/-- On equal-length inputs, the column total over distinct clusters is the
number of occurrences of the auto label `a`. -/
lemma colsum_eq_count (cl al : List ℤ) (h : cl.length = al.length) (a : ℤ) :
    colsum cl al a = (al.count a : ℚ) := by
  have hn : ∑ c in cl.toFinset, pairCount cl al c a = al.count a := by
    rw [sum_pairCount_fst, countP_snd_eq_count cl al h a]
  rw [colsum]
  exact_mod_cast congrArg (Nat.cast (R := ℚ)) hn

/-- On equal-length inputs, the row total over distinct auto labels is the
number of occurrences of the cluster label `c`. -/
lemma rowsum_eq_count (cl al : List ℤ) (h : cl.length = al.length) (c : ℤ) :
    ∑ a in al.toFinset, (pairCount cl al c a : ℚ) = (cl.count c : ℚ) := by
  have hn : ∑ a in al.toFinset, pairCount cl al c a = cl.count c := by
    rw [sum_pairCount_snd, countP_fst_eq_count cl al h c]
  exact_mod_cast congrArg (Nat.cast (R := ℚ)) hn

/-- A contingency-table entry is bounded by its column's auto-label count. -/
lemma pairCount_le_count (cl al : List ℤ) (h : cl.length = al.length) (c a : ℤ) :
    pairCount cl al c a ≤ al.count a := by
  rw [← countP_snd_eq_count cl al h a]
  refine List.countP_mono_left ?_
  intro p _ hp
  exact (Bool.and_eq_true _ _ |>.mp hp).2

lemma effValue_nonneg (cl al : List ℤ) (c : ℤ) : 0 ≤ effValue cl al c := by
  rw [effValue]
  apply div_nonneg
  · apply Finset.sum_nonneg
    intro a _
    apply mul_nonneg (by positivity)
    apply div_nonneg (by positivity)
    rw [colsum]
    positivity
  · apply Finset.sum_nonneg
    intro a _
    positivity

lemma effValue_le_one (cl al : List ℤ) (h : cl.length = al.length) {c : ℤ}
    (hc : c ∈ cl) : effValue cl al c ≤ 1 := by
  have hD : (0 : ℚ) < ∑ a in al.toFinset, (pairCount cl al c a : ℚ) := by
    rw [rowsum_eq_count cl al h c]
    exact_mod_cast List.count_pos_iff.mpr hc
  rw [effValue, div_le_one hD]
  refine Finset.sum_le_sum ?_
  intro a ha
  have hcol : (0 : ℚ) < colsum cl al a := by
    rw [colsum_eq_count cl al h a]
    exact_mod_cast List.count_pos_iff.mpr (List.mem_toFinset.mp ha)
  have hle : (pairCount cl al c a : ℚ) ≤ colsum cl al a := by
    rw [colsum_eq_count cl al h a]
    exact_mod_cast pairCount_le_count cl al h c a
  calc (pairCount cl al c a : ℚ) * ((pairCount cl al c a : ℚ) / colsum cl al a)
      ≤ (pairCount cl al c a : ℚ) * 1 :=
        mul_le_mul_of_nonneg_left ((div_le_one hcol).mpr hle) (by positivity)
    _ = (pairCount cl al c a : ℚ) := mul_one _

lemma zip_self (l : List ℤ) : l.zip l = l.map (fun x => (x, x)) := by
  induction l with
  | nil => rfl
  | cons x l ih => simp [ih]

lemma pairCount_self (l : List ℤ) (c a : ℤ) :
    pairCount l l c a = if c = a then l.count c else 0 := by
  rw [pairCount, zip_self, List.countP_map]
  by_cases hca : c = a
  · subst hca
    rw [if_pos rfl, List.count_eq_countP]
    refine List.countP_congr ?_
    intro x _
    simp [Function.comp]
  · rw [if_neg hca, List.countP_eq_zero]
    intro x _
    simp only [Function.comp, Bool.and_eq_true, beq_iff_eq]
    rintro ⟨h1, h2⟩
    exact hca (h1 ▸ h2)

lemma effValue_self (l : List ℤ) {c : ℤ} (hc : c ∈ l) : effValue l l c = 1 := by
  have hcnt : (0 : ℚ) < (l.count c : ℚ) := by
    exact_mod_cast List.count_pos_iff.mpr hc
  have hN : ∑ a in l.toFinset,
      (pairCount l l c a : ℚ) * ((pairCount l l c a : ℚ) / colsum l l a) =
        (l.count c : ℚ) := by
    rw [Finset.sum_eq_single c]
    · rw [pairCount_self, if_pos rfl, colsum_eq_count l l rfl c,
        div_self (ne_of_gt hcnt), mul_one]
    · intro a _ hac
      rw [pairCount_self, if_neg (fun hca => hac hca.symm)]
      simp
    · intro hcn
      exact absurd (List.mem_toFinset.mpr hc) hcn
  have hDen : ∑ a in l.toFinset, (pairCount l l c a : ℚ) = (l.count c : ℚ) :=
    rowsum_eq_count l l rfl c
  rw [effValue, hN, hDen, div_self (ne_of_gt hcnt)]

/-- If the members of cluster `c` coincide exactly with reference group
`a0` (positionwise, over the zipped labels), then `c`'s efficiency is 1. -/
lemma effValue_coincide (cl al : List ℤ) (c a0 : ℤ)
    (h : cl.length = al.length) (hc : c ∈ cl)
    (hco : ∀ p ∈ cl.zip al, p.1 = c ↔ p.2 = a0) :
    effValue cl al c = 1 := by
  obtain ⟨p0, hp0, hp0c⟩ : ∃ p ∈ cl.zip al, p.1 = c := by
    have hfst : List.map Prod.fst (cl.zip al) = cl := List.map_fst_zip cl al (le_of_eq h)
    obtain ⟨p, hp, hpc⟩ := List.mem_map.mp (hfst ▸ hc)
    exact ⟨p, hp, hpc⟩
  have ha0 : a0 ∈ al := by
    have := ((hco p0 hp0).mp hp0c)
    have hmem := (List.of_mem_zip (a := p0.1) (b := p0.2) (by simpa using hp0)).2
    rwa [this] at hmem
  have hk : pairCount cl al c a0 = (cl.zip al).countP (fun p => p.1 == c) := by
    rw [pairCount]
    refine List.countP_congr ?_
    intro p hp
    simp only [Bool.and_eq_true, beq_iff_eq]
    constructor
    · rintro ⟨h1, _⟩
      exact h1
    · intro h1
      exact ⟨h1, (hco p hp).mp h1⟩
  have hkc : pairCount cl al c a0 = cl.count c := by
    rw [hk, countP_fst_eq_count cl al h c]
  have hk0 : ∀ a : ℤ, a ≠ a0 → pairCount cl al c a = 0 := by
    intro a haa
    rw [pairCount, List.countP_eq_zero]
    intro p hp
    simp only [Bool.and_eq_true, beq_iff_eq]
    rintro ⟨h1, h2⟩
    exact haa (h2 ▸ (hco p hp).mp h1)
  have hcol0 : colsum cl al a0 = (cl.count c : ℚ) := by
    rw [colsum_eq_count cl al h a0, ← countP_fst_eq_count cl al h c,
      ← countP_snd_eq_count cl al h a0]
    congr 1
    exact_mod_cast congrArg (Nat.cast (R := ℚ))
      (List.countP_congr (fun p hp => by
        simp only [beq_iff_eq]
        exact (hco p hp).symm))
  have hcnt : (0 : ℚ) < (cl.count c : ℚ) := by
    exact_mod_cast List.count_pos_iff.mpr hc
  have hN : ∑ a in al.toFinset,
      (pairCount cl al c a : ℚ) * ((pairCount cl al c a : ℚ) / colsum cl al a) =
        (cl.count c : ℚ) := by
    rw [Finset.sum_eq_single a0]
    · rw [hkc, hcol0, div_self (ne_of_gt hcnt), mul_one]
    · intro a _ haa
      rw [hk0 a haa]
      simp
    · intro hcn
      exact absurd (List.mem_toFinset.mpr ha0) hcn
  have hDen : ∑ a in al.toFinset, (pairCount cl al c a : ℚ) = (cl.count c : ℚ) :=
    rowsum_eq_count cl al h c
  rw [effValue, hN, hDen, div_self (ne_of_gt hcnt)]

lemma toFinset_map_eq (l : List ℤ) (f : ℤ → ℤ) :
    (l.map f).toFinset = l.toFinset.image f := by
  ext x
  simp

lemma pairCount_map_left (cl al : List ℤ) (f : ℤ → ℤ)
    (hf : Function.Injective f) (c a : ℤ) :
    pairCount (cl.map f) al (f c) a = pairCount cl al c a := by
  rw [pairCount, pairCount, List.zip_map_left, List.countP_map]
  refine List.countP_congr ?_
  intro p _
  simp [Prod.map, hf.eq_iff]

lemma pairCount_map_right (cl al : List ℤ) (g : ℤ → ℤ)
    (hg : Function.Injective g) (c a : ℤ) :
    pairCount cl (al.map g) c (g a) = pairCount cl al c a := by
  rw [pairCount, pairCount, List.zip_map_right, List.countP_map]
  refine List.countP_congr ?_
  intro p _
  simp [Prod.map, hg.eq_iff]

lemma colsum_map_left (cl al : List ℤ) (f : ℤ → ℤ)
    (h : cl.length = al.length) (a : ℤ) :
    colsum (cl.map f) al a = colsum cl al a := by
  have h' : (cl.map f).length = al.length := by simpa using h
  rw [colsum_eq_count _ _ h' a, colsum_eq_count _ _ h a]

lemma effValue_map_left (cl al : List ℤ) (f : ℤ → ℤ)
    (hf : Function.Injective f) (h : cl.length = al.length) (c : ℤ) :
    effValue (cl.map f) al (f c) = effValue cl al c := by
  rw [effValue, effValue]
  congr 1
  · refine Finset.sum_congr rfl ?_
    intro a _
    rw [pairCount_map_left cl al f hf, colsum_map_left cl al f h]
  · refine Finset.sum_congr rfl ?_
    intro a _
    rw [pairCount_map_left cl al f hf]

lemma effValue_map_right (cl al : List ℤ) (g : ℤ → ℤ)
    (hg : Function.Injective g) (h : cl.length = al.length) (c : ℤ) :
    effValue cl (al.map g) c = effValue cl al c := by
  have h' : cl.length = (al.map g).length := by simpa using h
  have hinj : ∀ x ∈ al.toFinset, ∀ y ∈ al.toFinset, g x = g y → x = y :=
    fun x _ y _ hxy => hg hxy
  have hcolg : ∀ a : ℤ, colsum cl (al.map g) (g a) = colsum cl al a := by
    intro a
    rw [colsum_eq_count _ _ h' (g a), colsum_eq_count _ _ h a,
      List.count_map_of_injective al g hg a]
  rw [effValue, effValue, toFinset_map_eq]
  congr 1
  · rw [Finset.sum_image hinj]
    refine Finset.sum_congr rfl ?_
    intro a _
    rw [pairCount_map_right cl al g hg, hcolg]
  · rw [Finset.sum_image hinj]
    refine Finset.sum_congr rfl ?_
    intro a _
    rw [pairCount_map_right cl al g hg]

/-- Renaming all reference labels by an injective map leaves the result of
`cluster_efficiency` unchanged. -/
lemma cluster_efficiency_map_right (cl al : List ℤ) (g : ℤ → ℤ)
    (hg : Function.Injective g) (h : cl.length = al.length) :
    cluster_efficiency cl (al.map g) = cluster_efficiency cl al := by
  have h' : cl.length = (al.map g).length := by simpa using h
  rw [cluster_efficiency_eq cl (al.map g) h', cluster_efficiency_eq cl al h]
  refine congrArg some (List.map_congr_left ?_)
  intro c _
  rw [effValue_map_right cl al g hg h]

/-- Membership in the closed-form association list. -/
lemma mem_effMap {L : List ℤ} {v : ℤ → ℚ} {c : ℤ} {q : ℚ} :
    (c, q) ∈ (sortedDistinct L).map (fun c => (c, v c)) ↔ c ∈ L ∧ q = v c := by
  constructor
  · intro hm
    obtain ⟨c0, hc0, hpair⟩ := List.mem_map.mp hm
    have h1 : c0 = c := congrArg Prod.fst hpair
    have h2 : v c0 = q := congrArg Prod.snd hpair
    subst h1
    exact ⟨mem_sortedDistinct.mp hc0, h2.symm⟩
  · rintro ⟨hc, rfl⟩
    exact List.mem_map.mpr ⟨c, mem_sortedDistinct.mpr hc, rfl⟩

/-- C1: for every pair of equal-length label vectors, `cluster_efficiency`
returns the map sending each distinct cluster label `c` (in sorted order) to
`(Σ_j T[c,j] * (T[c,j] / colsum_j)) / (Σ_j T[c,j])`, where `T` is the
contingency table `pairCount` and `colsum_j` sums column `j` over all
distinct clusters (`effValue` is exactly this formula). -/
theorem cluster_efficiency_formula (cl al : List ℤ)
    (h : cl.length = al.length) :
    cluster_efficiency cl al =
      some ((sortedDistinct cl).map (fun c => (c, effValue cl al c))) :=
  cluster_efficiency_eq cl al h

theorem cluster_efficiency_formula_witness :
    ([1, 1, 2] : List ℤ).length = ([3, 4, 3] : List ℤ).length ∧
      cluster_efficiency [1, 1, 2] [3, 4, 3] =
        some ((sortedDistinct [1, 1, 2]).map
          (fun c => (c, effValue [1, 1, 2] [3, 4, 3] c))) :=
  ⟨rfl, cluster_efficiency_formula [1, 1, 2] [3, 4, 3] rfl⟩

/-- C2: on equal-length inputs the returned map has exactly one entry per
distinct cluster label occurring in `cluster_labels`, and every value lies
in the closed interval `[0, 1]`. -/
theorem cluster_efficiency_keys_and_range (cl al : List ℤ)
    (h : cl.length = al.length) :
    ∃ m, cluster_efficiency cl al = some m ∧
      (m.map Prod.fst).Nodup ∧
      (∀ c : ℤ, c ∈ m.map Prod.fst ↔ c ∈ cl) ∧
      ∀ p ∈ m, 0 ≤ p.2 ∧ p.2 ≤ 1 := by
  have hfst : (Prod.fst ∘ fun c => (c, effValue cl al c)) = id := rfl
  refine ⟨_, cluster_efficiency_eq cl al h, ?_, ?_, ?_⟩
  · rw [List.map_map, hfst, List.map_id]
    exact sortedDistinct_nodup cl
  · intro c
    rw [List.map_map, hfst, List.map_id]
    exact mem_sortedDistinct
  · intro p hp
    obtain ⟨c0, hc0, hpair⟩ := List.mem_map.mp hp
    have hcm : c0 ∈ cl := mem_sortedDistinct.mp hc0
    rw [← hpair]
    exact ⟨effValue_nonneg cl al c0, effValue_le_one cl al h hcm⟩

theorem cluster_efficiency_keys_and_range_witness :
    ([1, 2, 1] : List ℤ).length = ([7, 7, 8] : List ℤ).length ∧
      ∃ m, cluster_efficiency [1, 2, 1] [7, 7, 8] = some m ∧
        (m.map Prod.fst).Nodup ∧
        (∀ c : ℤ, c ∈ m.map Prod.fst ↔ c ∈ ([1, 2, 1] : List ℤ)) ∧
        ∀ p ∈ m, 0 ≤ p.2 ∧ p.2 ≤ 1 :=
  ⟨rfl, cluster_efficiency_keys_and_range [1, 2, 1] [7, 7, 8] rfl⟩

/-- C3: on identical partitions every cluster's efficiency is exactly 1;
more generally any cluster whose members coincide positionwise with one
reference group gets value 1 in the returned map. -/
theorem cluster_efficiency_identity_one :
    (∀ l : List ℤ, cluster_efficiency l l =
        some ((sortedDistinct l).map (fun c => (c, (1 : ℚ))))) ∧
      ∀ (cl al : List ℤ) (c a0 : ℤ), cl.length = al.length → c ∈ cl →
        (∀ p ∈ cl.zip al, p.1 = c ↔ p.2 = a0) →
        ∃ m, cluster_efficiency cl al = some m ∧ (c, (1 : ℚ)) ∈ m := by
  constructor
  · intro l
    rw [cluster_efficiency_eq l l rfl]
    refine congrArg some (List.map_congr_left ?_)
    intro c hc
    rw [effValue_self l (mem_sortedDistinct.mp hc)]
  · intro cl al c a0 h hc hco
    exact ⟨_, cluster_efficiency_eq cl al h,
      mem_effMap.mpr ⟨hc, (effValue_coincide cl al c a0 h hc hco).symm⟩⟩

theorem cluster_efficiency_identity_one_witness :
    ∃ m, cluster_efficiency [4, 4, 9] [0, 0, 2] = some m ∧
      ((4 : ℤ), (1 : ℚ)) ∈ m :=
  cluster_efficiency_identity_one.2 [4, 4, 9] [0, 0, 2] 4 0 rfl
    (by decide) (by decide)

/-- C4: mismatched input lengths violate the precondition (the `assert` at
line 13): the computation produces no result. -/
theorem cluster_efficiency_length_mismatch (cl al : List ℤ)
    (h : cl.length ≠ al.length) : cluster_efficiency cl al = none := by
  rw [cluster_efficiency, if_neg h]

theorem cluster_efficiency_length_mismatch_witness :
    ([1, 2, 3] : List ℤ).length ≠ ([1, 2] : List ℤ).length ∧
      cluster_efficiency [1, 2, 3] [1, 2] = none :=
  ⟨by decide, cluster_efficiency_length_mismatch [1, 2, 3] [1, 2] (by decide)⟩

/-- C5: `cluster_efficiency` is invariant under injective relabelings:
renaming the cluster labels by `f` renames the keys of the returned map
without changing the associated values, and renaming the reference labels
by `g` leaves the returned map entirely unchanged. -/
theorem cluster_efficiency_relabel_invariant (cl al : List ℤ) (f g : ℤ → ℤ)
    (h : cl.length = al.length) (hf : Function.Injective f)
    (hg : Function.Injective g) :
    ∃ m m', cluster_efficiency cl al = some m ∧
      cluster_efficiency (cl.map f) al = some m' ∧
      (∀ (c : ℤ) (q : ℚ), (c, q) ∈ m → (f c, q) ∈ m') ∧
      (∀ (x : ℤ) (q : ℚ), (x, q) ∈ m' →
        ∃ c, c ∈ cl ∧ f c = x ∧ (c, q) ∈ m) ∧
      cluster_efficiency cl (al.map g) = cluster_efficiency cl al := by
  have h' : (cl.map f).length = al.length := by simpa using h
  refine ⟨_, _, cluster_efficiency_eq cl al h,
    cluster_efficiency_eq (cl.map f) al h', ?_, ?_,
    cluster_efficiency_map_right cl al g hg h⟩
  · intro c q hm
    obtain ⟨hc, rfl⟩ := mem_effMap.mp hm
    refine mem_effMap.mpr ⟨List.mem_map_of_mem f hc, ?_⟩
    rw [effValue_map_left cl al f hf h]
  · intro x q hm'
    obtain ⟨hx, rfl⟩ := mem_effMap.mp hm'
    obtain ⟨c, hc, rfl⟩ := List.mem_map.mp hx
    exact ⟨c, hc, rfl,
      mem_effMap.mpr ⟨hc, effValue_map_left cl al f hf h c⟩⟩

theorem cluster_efficiency_relabel_invariant_witness :
    ∃ m m', cluster_efficiency [0, 1] [5, 5] = some m ∧
      cluster_efficiency (([0, 1] : List ℤ).map (· + 10)) [5, 5] = some m' ∧
      (∀ (c : ℤ) (q : ℚ), (c, q) ∈ m → (c + 10, q) ∈ m') ∧
      (∀ (x : ℤ) (q : ℚ), (x, q) ∈ m' →
        ∃ c, c ∈ ([0, 1] : List ℤ) ∧ c + 10 = x ∧ (c, q) ∈ m) ∧
      cluster_efficiency [0, 1] (([5, 5] : List ℤ).map id) =
        cluster_efficiency [0, 1] [5, 5] :=
  cluster_efficiency_relabel_invariant [0, 1] [5, 5] (· + 10) id rfl
    (add_left_injective 10) Function.injective_id

/-- C10: the divisor `n_auto = sum(table[:, j])` used at line 42 is at
least 1 (hence nonzero) for every reference label actually occurring in
`auto_labels`, so the division inside `cluster_efficiency` never divides
by zero on equal-length inputs. -/
theorem cluster_efficiency_colsum_pos (cl al : List ℤ) (a : ℤ)
    (h : cl.length = al.length) (ha : a ∈ al) :
    1 ≤ ((sortedDistinct cl).map
        (fun c => (pairCount cl al c a : ℚ))).sum ∧
      ((sortedDistinct cl).map
        (fun c => (pairCount cl al c a : ℚ))).sum ≠ 0 := by
  have hpos : 0 < al.count a := List.count_pos_iff.mpr ha
  have h1 : 1 ≤ al.count a := hpos
  have hQ : (1 : ℚ) ≤ (al.count a : ℚ) := by exact_mod_cast h1
  rw [sum_map_sortedDistinct]
  have hc : (∑ c in cl.toFinset, (pairCount cl al c a : ℚ)) = (al.count a : ℚ) :=
    colsum_eq_count cl al h a
  rw [hc]
  exact ⟨hQ, by positivity⟩

theorem cluster_efficiency_colsum_pos_witness :
    1 ≤ ((sortedDistinct [1, 2]).map
        (fun c => (pairCount [1, 2] [3, 3] c 3 : ℚ))).sum ∧
      ((sortedDistinct [1, 2]).map
        (fun c => (pairCount [1, 2] [3, 3] c 3 : ℚ))).sum ≠ 0 :=
  cluster_efficiency_colsum_pos [1, 2] [3, 3] 3 rfl (by decide)


/-- Computation rule for `sortedDistinct` on concrete lists: any sorted
duplicate-free list with the same elements is the result. -/
lemma sortedDistinct_eq_of (l L : List ℤ) (hn : L.Nodup)
    (hs : L.Sorted (· ≤ ·)) (hf : l.toFinset = L.toFinset) :
    sortedDistinct l = L := by
  rw [sortedDistinct, hf]
  exact (List.toFinset_sort (· ≤ ·) hn).mpr hs

/-- Embedding of `report_cluster_counts` (lines 124-130): one line per
distinct label, in sorted order, pairing the label with
`sum(cluster_labels == cluster)`, its number of occurrences. -/
def report_cluster_counts (cluster_labels : List ℤ) : List (ℤ × ℕ) :=
  (sortedDistinct cluster_labels).map (fun cluster =>
    (cluster, cluster_labels.count cluster))

/-- C6: the reporter emits exactly one line per distinct label with that
label's count, visiting labels in sorted order; on `[0, 0, 1, 1, 1]` it
reports cluster 0 with count 2 and cluster 1 with count 3. -/
theorem report_cluster_counts_spec :
    (∀ l : List ℤ,
      ((report_cluster_counts l).map Prod.fst).Sorted (· < ·) ∧
        ∀ (c : ℤ) (n : ℕ),
          (c, n) ∈ report_cluster_counts l ↔ c ∈ l ∧ n = l.count c) ∧
      report_cluster_counts [0, 0, 1, 1, 1] = [(0, 2), (1, 3)] := by
  constructor
  · intro l
    have hfst : (Prod.fst ∘ fun c => (c, l.count c)) = id := rfl
    constructor
    · rw [report_cluster_counts, List.map_map, hfst, List.map_id]
      exact Finset.sort_sorted_lt _
    · intro c n
      constructor
      · intro hm
        obtain ⟨c0, hc0, hpair⟩ := List.mem_map.mp hm
        have h1 : c0 = c := congrArg Prod.fst hpair
        have h2 : l.count c0 = n := congrArg Prod.snd hpair
        subst h1
        exact ⟨mem_sortedDistinct.mp hc0, h2.symm⟩
      · rintro ⟨hc, rfl⟩
        exact List.mem_map.mpr ⟨c, mem_sortedDistinct.mpr hc, rfl⟩
  · have hsd : sortedDistinct [0, 0, 1, 1, 1] = [0, 1] :=
      sortedDistinct_eq_of _ _ (by decide) (by decide) (by decide)
    rw [report_cluster_counts, hsd]
    decide

/-- Events emitted by the downsample driver `experiment_srs`, in order: the
original-data visualization (recording the row indices it plots), each call
to the external sampler (recording the matrix argument and requested size),
each visualization of a sampled subset, and each cluster-count audit. -/
inductive SrsEvent (α : Type) where
  | visualizeOrig (idx : List ℕ) : SrsEvent α
  | srsCall (X : List α) (N : ℕ) : SrsEvent α
  | visualizeSample (idx : List ℕ) (N : ℕ) : SrsEvent α
  | reportCounts (counts : List (ℤ × ℕ)) : SrsEvent α
deriving DecidableEq

/-- Whether an event is the original-data visualization. -/
def SrsEvent.isVisualizeOrig {α : Type} : SrsEvent α → Bool
  | SrsEvent.visualizeOrig _ => true
  | _ => false

/-- Embedding of `experiment_srs` (lines 132-214) as the trace of calls it
makes to its external collaborators.  `X_dimred` is the list of rows of the
point matrix, `cell_labels` the acquired reference labels, `srs` the
external structure-preserving sampler, and `rand_idx` the subset drawn by
`np.random.choice` when the original visualization must be downsampled
(line 166); `Ns` is the sequence of target sizes (line 189).  Label
acquisition (lines 138-156) and the gene-expression overlay are
orchestration around these calls and do not change which sampler or
visualizer calls occur. -/
def experiment_srs (α : Type) (X_dimred : List α) (cell_labels : List ℤ)
    (visualize_orig downsample : Bool) (n_downsample : ℕ)
    (rand_idx : List ℕ) (srs : List α → ℕ → List ℕ) (Ns : List ℕ) :
    List (SrsEvent α) :=
  (if visualize_orig = true then
    [SrsEvent.visualizeOrig
      (if downsample = true ∧ n_downsample < X_dimred.length then rand_idx
       else List.range X_dimred.length)]
  else []) ++
    Ns.flatMap (fun N =>
      if X_dimred.length ≤ N then []
      else
        [SrsEvent.srsCall X_dimred N,
          SrsEvent.visualizeSample (srs X_dimred N) N,
          SrsEvent.reportCounts (report_cluster_counts
            ((srs X_dimred N).map (fun i => cell_labels.getD i 0)))])

/-- The target-size sequence hard-coded at line 189 of the source. -/
def srs_Ns : List ℕ := [1000, 5000, 10000, 20000, 50000]

/-- Every event of the trace is either the original visualization or comes
from a loop iteration whose target size is below the row count. -/
lemma experiment_srs_mem {α : Type} (X : List α) (cell_labels : List ℤ)
    (vo ds : Bool) (nd : ℕ) (rand_idx : List ℕ)
    (srs : List α → ℕ → List ℕ) (Ns : List ℕ) (e : SrsEvent α)
    (he : e ∈ experiment_srs α X cell_labels vo ds nd rand_idx srs Ns) :
    e.isVisualizeOrig = true ∨
      ∃ N', ¬ X.length ≤ N' ∧
        (e = SrsEvent.srsCall X N' ∨
          e = SrsEvent.visualizeSample (srs X N') N' ∨
          e = SrsEvent.reportCounts (report_cluster_counts
            ((srs X N').map (fun i => cell_labels.getD i 0)))) := by
  rcases List.mem_append.mp he with hv | hb
  · left
    by_cases hvo : vo = true
    · rw [if_pos hvo] at hv
      rw [List.mem_singleton.mp hv]
      rfl
    · rw [if_neg hvo] at hv
      exact absurd hv (List.not_mem_nil e)
  · right
    obtain ⟨N', _, hev⟩ := List.mem_flatMap.mp hb
    by_cases hle : X.length ≤ N'
    · rw [if_pos hle] at hev
      exact absurd hev (List.not_mem_nil e)
    · rw [if_neg hle] at hev
      refine ⟨N', hle, ?_⟩
      simp only [List.mem_cons, List.not_mem_nil, or_false] at hev
      exact hev

/-- C7: a target size `N` at least the number of rows of the point matrix
is skipped entirely: the trace contains no sampler call and no
sample-visualization for that `N`. -/
theorem experiment_srs_skip {α : Type} (X : List α) (cell_labels : List ℤ)
    (vo ds : Bool) (nd : ℕ) (rand_idx : List ℕ)
    (srs : List α → ℕ → List ℕ) (Ns : List ℕ) (N : ℕ)
    (_hN : N ∈ Ns) (hge : X.length ≤ N) :
    (∀ X' : List α, SrsEvent.srsCall X' N ∉
        experiment_srs α X cell_labels vo ds nd rand_idx srs Ns) ∧
      ∀ idx : List ℕ, SrsEvent.visualizeSample idx N ∉
        experiment_srs α X cell_labels vo ds nd rand_idx srs Ns := by
  constructor
  · intro X' hmem
    rcases experiment_srs_mem X cell_labels vo ds nd rand_idx srs Ns _ hmem
      with hv | ⟨N', hlt, h | h | h⟩
    · exact Bool.noConfusion hv
    · injection h with h1 h2
      exact hlt (h2 ▸ hge)
    · exact SrsEvent.noConfusion h
    · exact SrsEvent.noConfusion h
  · intro idx hmem
    rcases experiment_srs_mem X cell_labels vo ds nd rand_idx srs Ns _ hmem
      with hv | ⟨N', hlt, h | h | h⟩
    · exact Bool.noConfusion hv
    · exact SrsEvent.noConfusion h
    · injection h with h1 h2
      exact hlt (h2 ▸ hge)
    · exact SrsEvent.noConfusion h

theorem experiment_srs_skip_witness :
    (SrsEvent.srsCall ([7, 9] : List ℤ) 3 ∉
        experiment_srs ℤ [7, 9] [0, 0] true true 100000 []
          (fun _ _ => []) [3]) ∧
      SrsEvent.visualizeSample [0] 3 ∉
        experiment_srs ℤ [7, 9] [0, 0] true true 100000 []
          (fun _ _ => []) [3] :=
  ⟨(experiment_srs_skip [7, 9] [0, 0] true true 100000 [] (fun _ _ => [])
      [3] 3 (by decide) (by decide)).1 [7, 9],
    (experiment_srs_skip [7, 9] [0, 0] true true 100000 [] (fun _ _ => [])
      [3] 3 (by decide) (by decide)).2 [0]⟩

/-- C8: the random visualization subset is used only for the original-data
visualization: the rest of the trace (sampler calls, sample visualizations,
count reports) is the same for any random draw, downsample flag, cap and
original-visualization flag, and every call to the sampler receives the
full, unmodified point matrix. -/
theorem experiment_srs_frame {α : Type} (X : List α) (cell_labels : List ℤ)
    (vo ds vo' ds' : Bool) (nd nd' : ℕ) (rand_idx rand_idx' : List ℕ)
    (srs : List α → ℕ → List ℕ) (Ns : List ℕ) :
    ((experiment_srs α X cell_labels vo ds nd rand_idx srs Ns).filter
        (fun e => ! e.isVisualizeOrig) =
      (experiment_srs α X cell_labels vo' ds' nd' rand_idx' srs Ns).filter
        (fun e => ! e.isVisualizeOrig)) ∧
      ∀ (X' : List α) (N : ℕ),
        SrsEvent.srsCall X' N ∈
            experiment_srs α X cell_labels vo ds nd rand_idx srs Ns →
          X' = X := by
  constructor
  · have hpre : ∀ (b d : Bool) (n : ℕ) (r : List ℕ),
        ((if b = true then
            [SrsEvent.visualizeOrig (α := α)
              (if d = true ∧ n < X.length then r
               else List.range X.length)]
          else []).filter (fun e => ! e.isVisualizeOrig)) = [] := by
      intro b d n r
      by_cases hb : b = true
      · rw [if_pos hb]
        rfl
      · rw [if_neg hb]
        rfl
    rw [experiment_srs, experiment_srs, List.filter_append,
      List.filter_append, hpre, hpre]
  · intro X' N hmem
    rcases experiment_srs_mem X cell_labels vo ds nd rand_idx srs Ns _ hmem
      with hv | ⟨N', _, h | h | h⟩
    · exact Bool.noConfusion hv
    · injection h with h1 h2
    · exact SrsEvent.noConfusion h
    · exact SrsEvent.noConfusion h

/-- The `k` sweep hard-coded at line 60 of the source. -/
def kmeans_ks_src : List ℕ := [5, 10, 20, 30, 40, 50, 100]

/-- Embedding of `experiment_efficiency_kmeans` (lines 55-83): for each
`kmeans_k` in the sweep sequence the external clustering is fit on the
point matrix and yields one label per row (modelled by the oracle
`kmeans : ℕ → List ℤ`), and the driver records
`cluster_efficiency(cluster_labels, km.labels_)` keyed by `kmeans_k` —
note the caller's labels are the first argument.  The source sweeps the
fixed sequence `kmeans_ks_src`; the sequence is a parameter here, as in
the specification's contract for the sweep driver. -/
def experiment_efficiency_kmeans (kmeans : ℕ → List ℤ)
    (cluster_labels : List ℤ) (kmeans_ks : List ℕ) :
    List (ℕ × Option (List (ℤ × ℚ))) :=
  kmeans_ks.map (fun kmeans_k =>
    (kmeans_k, cluster_efficiency cluster_labels (kmeans kmeans_k)))

/-- C9 counterexample: with caller-supplied reference labels `[0, 0]` and a
clustering oracle returning labels `[1, 2]` for every `k`, the map recorded
for `k = 5` in the sweep over `[5, 10]` has key set `{0}` — the distinct
labels of the caller's vector — not `{1, 2}`, the distinct labels the
clustering produced, refuting the claimed key-set property. -/
theorem experiment_efficiency_kmeans_counterexample :
    ¬ ∀ (k : ℕ) (m : List (ℤ × ℚ)),
        (k, some m) ∈
          experiment_efficiency_kmeans (fun _ => [1, 2]) [0, 0] [5, 10] →
        ∀ x : ℤ, x ∈ m.map Prod.fst ↔ x ∈ ((fun _ => ([1, 2] : List ℤ)) k) := by
  intro hcl
  have hsd : sortedDistinct [0, 0] = [0] :=
    sortedDistinct_eq_of _ _ (by decide) (by decide) (by decide)
  have hce : cluster_efficiency [0, 0] [1, 2] =
      some [(0, effValue [0, 0] [1, 2] 0)] := by
    rw [cluster_efficiency_eq [0, 0] [1, 2] rfl, hsd]
    rfl
  have h5 : ((5 : ℕ), some [((0 : ℤ), effValue [0, 0] [1, 2] 0)]) ∈
      experiment_efficiency_kmeans (fun _ => [1, 2]) [0, 0] [5, 10] := by
    rw [experiment_efficiency_kmeans]
    refine List.mem_map.mpr ⟨5, by decide, ?_⟩
    rw [hce]
  have h0 : (0 : ℤ) ∈
      ([((0 : ℤ), effValue [0, 0] [1, 2] 0)].map Prod.fst) := by
    rw [List.map_cons]
    exact List.mem_cons_self _ _
  have := (hcl 5 [(0, effValue [0, 0] [1, 2] 0)] h5 0).mp h0
  exact absurd this (by decide)

/-- C9 amended: the sweep driver returns one entry per swept `k`, in sweep
order; provided the clustering oracle returns one label per row (so its
label vector has the caller's length), the efficiency map recorded for each
`k` has key set equal to the distinct labels of the caller-supplied
reference vector — the first argument of `cluster_efficiency` — which is
the same for every `k`, not the labels the clustering produced. -/
theorem experiment_efficiency_kmeans_spec (kmeans : ℕ → List ℤ)
    (cluster_labels : List ℤ) (ks : List ℕ)
    (hlen : ∀ k ∈ ks, (kmeans k).length = cluster_labels.length) :
    ((experiment_efficiency_kmeans kmeans cluster_labels ks).map Prod.fst
        = ks) ∧
      ∀ k ∈ ks, ∃ m,
        (k, some m) ∈ experiment_efficiency_kmeans kmeans cluster_labels ks ∧
          ∀ x : ℤ, x ∈ m.map Prod.fst ↔ x ∈ cluster_labels := by
  constructor
  · rw [experiment_efficiency_kmeans, List.map_map]
    have hfst : (Prod.fst ∘ fun k =>
        (k, cluster_efficiency cluster_labels (kmeans k))) = id := rfl
    rw [hfst, List.map_id]
  · intro k hk
    have h : cluster_labels.length = (kmeans k).length := (hlen k hk).symm
    refine ⟨(sortedDistinct cluster_labels).map
        (fun c => (c, effValue cluster_labels (kmeans k) c)), ?_, ?_⟩
    · refine List.mem_map.mpr ⟨k, hk, ?_⟩
      rw [cluster_efficiency_eq _ _ h]
    · intro x
      have hfst : (Prod.fst ∘ fun c =>
          (c, effValue cluster_labels (kmeans k) c)) = id := rfl
      rw [List.map_map, hfst, List.map_id]
      exact mem_sortedDistinct

theorem experiment_efficiency_kmeans_spec_witness :
    (∀ k ∈ ([5, 10] : List ℕ),
        ((fun _ => ([1, 2] : List ℤ)) k).length =
          ([0, 0] : List ℤ).length) ∧
      ((experiment_efficiency_kmeans (fun _ => [1, 2]) [0, 0] [5, 10]).map
          Prod.fst = [5, 10]) ∧
        ∀ k ∈ ([5, 10] : List ℕ), ∃ m,
          (k, some m) ∈
              experiment_efficiency_kmeans (fun _ => [1, 2]) [0, 0] [5, 10] ∧
            ∀ x : ℤ, x ∈ m.map Prod.fst ↔ x ∈ ([0, 0] : List ℤ) :=
  ⟨by decide,
    experiment_efficiency_kmeans_spec (fun _ => [1, 2]) [0, 0] [5, 10]
      (by decide)⟩
